import Mathlib

/-!
Verification of `scripts/build_gallery.py`, the gallery builder.

The script is a single-pass batch process: it recursively finds all
`index.html` marker files under `src/apps`, sorts their paths, derives for
each demo a name (containing directory) and category (that directory's
parent), groups demos by category, renders a static HTML gallery page and
writes it to `index.html`, finally printing the demo count.

The embedding below models:
  * filesystem paths as their `pathlib` parts (`List String`; `[]` is `.`),
  * Python string comparison as lexicographic comparison of code points,
  * `sorted(...)` as a stable sort (`List.insertionSort`) under that order,
  * the grouping `defaultdict` as an insertion-ordered association list,
  * the rendering f-strings as explicit string concatenation,
  * the process's observable behaviour as a trace of write/print events.
-/

namespace BuildGallery

/-- A filesystem path, as its `pathlib` parts; `[]` plays the role of `Path(".")`. -/
abbrev FsPath := List String

/-- Join path parts with `/`, as `str()` does for a relative POSIX path. -/
def joinSegs : List String → String
  | [] => ""
  | [a] => a
  | a :: b :: rest => a ++ "/" ++ joinSegs (b :: rest)

/-- Model of `str(p)` for a relative `pathlib` path: parts joined by `/`, `"."` when empty. -/
def pathStr (p : FsPath) : String := if p = [] then "." else joinSegs p

/-- Model of `p.name`: the final path component, `""` for the empty path. -/
def pname (p : FsPath) : String := (p.getLast?).getD ""

/-- Model of `p.parent`: the path with its final component removed. -/
def parentDir (p : FsPath) : FsPath := p.dropLast

/-- Python `s.replace(c, r)` for a single-character pattern `c`, as used in
`str(app_path).replace("\\", "/")`. -/
def replaceChar (s : String) (c : Char) (r : String) : String :=
  String.mk (s.data.flatMap fun a => if a = c then r.data else [a])

/-- The computation `rel_path = str(app_path).replace("\\", "/")` (92 is the backslash code point). -/
def relPath (p : FsPath) : String := replaceChar (pathStr p) (Char.ofNat 92) "/"

/-- Lexicographic comparison of code-point sequences: Python string `<=`. -/
def lexLe : List Char → List Char → Bool
  | [], _ => true
  | _ :: _, [] => false
  | a :: as, b :: bs =>
    if a.toNat < b.toNat then true
    else if b.toNat < a.toNat then false
    else lexLe as bs

/-- Python's `<=` on strings: lexicographic on code points. -/
def strLe (a b : String) : Prop := lexLe a.data b.data = true

instance : DecidableRel strLe := fun a b =>
  inferInstanceAs (Decidable (lexLe a.data b.data = true))

/-- Ordering of `pathlib` paths used by `sorted(...)`: full path string comparison. -/
def pathLe (p q : FsPath) : Prop := strLe (pathStr p) (pathStr q)

instance : DecidableRel pathLe := fun p q =>
  inferInstanceAs (Decidable (strLe (pathStr p) (pathStr q)))

/-- The scan `sorted(apps_dir.rglob("index.html"))`: the discovered marker-file paths,
sorted by full path string comparison (any stable sort; Python's sort is stable). -/
def scan (found : List FsPath) : List FsPath := List.insertionSort pathLe found

/-- The loop body deriving one entry `(category, name, rel_path)` from a marker file:
`app_path = index_file.parent`, `name = app_path.name`,
`category = app_path.parent.name`. -/
def entryOf (f : FsPath) : String × String × String :=
  (pname (parentDir (parentDir f)), pname (parentDir f), relPath (parentDir f))

/-- The `entries` list built by the scan loop, in sorted scan order. -/
def mkEntries (found : List FsPath) : List (String × String × String) :=
  (scan found).map entryOf

/-- One step `by_category[category].append((name, path))` on an insertion-ordered
association list (`defaultdict(list)` preserves key insertion order). -/
def insertEntry (m : List (String × List (String × String))) (cat : String)
    (v : String × String) : List (String × List (String × String)) :=
  match m with
  | [] => [(cat, [v])]
  | ce :: rest =>
    if ce.1 = cat then (ce.1, ce.2 ++ [v]) :: rest
    else ce :: insertEntry rest cat v

/-- The grouping loop: `for category, name, path in entries: by_category[category].append(...)`. -/
def byCategory (entries : List (String × String × String)) :
    List (String × List (String × String)) :=
  entries.foldl (fun m e => insertEntry m e.1 (e.2.1, e.2.2)) []

/-- Lookup `by_category[c]` in the association list (`[]` when absent). -/
def getCat (m : List (String × List (String × String))) (c : String) :
    List (String × String) :=
  match m.find? (fun ce => ce.1 == c) with
  | some ce => ce.2
  | none => []

/-- The keys `sorted(by_category)`: categories in ascending Python string order. -/
def sortedCats (m : List (String × List (String × String))) : List String :=
  List.insertionSort strLe (m.map Prod.fst)

/-- One card, exactly as the f-string renders it: the demo's `path` (with a
trailing slash appended as the href), `name`, and `category` spliced verbatim. -/
def cardHtml (name path category : String) : String :=
  "\n        <a class=\"card\" href=\"" ++ path ++
  "/\">\n          <div class=\"card-name\">" ++ name ++
  "</div>\n          <div class=\"card-category\">" ++ category ++
  "</div>\n        </a>"

/-- The inner loop `cards += ...` accumulating the cards of one category. -/
def cardsHtml (category : String) (items : List (String × String)) : String :=
  items.foldl (fun acc v => acc ++ cardHtml v.1 v.2 category) ""

/-- One `<section>` block, exactly as the f-string renders it. -/
def sectionHtml (category : String) (items : List (String × String)) : String :=
  "<section><h2>" ++ category ++ "</h2><div class=\x27grid\x27>" ++
  cardsHtml category items ++ "</div></section>\n"

/-- The outer loop `for category in sorted(by_category): sections += ...`. -/
def sectionsHtml (m : List (String × List (String × String))) : String :=
  (sortedCats m).foldl (fun acc c => acc ++ sectionHtml c (getCat m c)) ""

/-- The fixed document text before the `{sections}` splice point. -/
def docHead : String :=
  "<!DOCTYPE html>\n<html lang=\"en\">\n<head>\n  <meta charset=\"UTF-8\">\n" ++
  "  <meta name=\"viewport\" content=\"width=device-width, initial-scale=1.0\">\n" ++
  "  <title>Makeability Lab — JavaScript Demo Gallery</title>\n  <style>\n" ++
  "    body \x7b font-family: system-ui, sans-serif; max-width: 960px; margin: 0 auto; padding: 2rem; \x7d\n" ++
  "    h1 \x7b font-size: 1.8rem; margin-bottom: 0.25rem; \x7d\n" ++
  "    h2 \x7b font-size: 1.1rem; color: #555; border-bottom: 1px solid #ddd; padding-bottom: 0.25rem; \x7d\n" ++
  "    .grid \x7b display: grid; grid-template-columns: repeat(auto-fill, minmax(180px, 1fr)); gap: 1rem; margin: 1rem 0 2rem; \x7d\n" ++
  "    .card \x7b display: block; padding: 1rem; border: 1px solid #ddd; border-radius: 8px; text-decoration: none; color: inherit; transition: box-shadow 0.15s; \x7d\n" ++
  "    .card:hover \x7b box-shadow: 0 2px 8px rgba(0,0,0,0.15); \x7d\n" ++
  "    .card-name \x7b font-weight: 600; font-size: 0.95rem; \x7d\n" ++
  "    .card-category \x7b font-size: 0.75rem; color: #888; margin-top: 0.25rem; \x7d\n" ++
  "  </style>\n</head>\n<body>\n  <h1>Makeability Lab — JavaScript Demo Gallery</h1>\n  "

/-- The fixed document text after the `{sections}` splice point. -/
def docTail : String := "\n</body>\n</html>"

/-- The full document f-string with `sections` spliced in. -/
def htmlDoc (sections : String) : String := docHead ++ sections ++ docTail

/-- The HTML text the program builds from the discovered marker files. -/
def buildHtml (found : List FsPath) : String :=
  htmlDoc (sectionsHtml (byCategory (mkEntries found)))

/-- The cards of the rendered document in render order, each tagged
`(name, path, category)` with the section (category) it appears under. -/
def cardsList (m : List (String × List (String × String))) :
    List (String × String × String) :=
  (sortedCats m).flatMap fun c => (getCat m c).map fun v => (v.1, v.2, c)

/-- The cards of the document built from `found`, in render order. -/
def galleryCards (found : List FsPath) : List (String × String × String) :=
  cardsList (byCategory (mkEntries found))

/-- An observable effect of the process: a file write or a stdout line. -/
inductive Event where
  | write (path content : String)
  | print (line : String)
deriving DecidableEq

/-- Python's `repr` of the raw `rglob` result list printed by the first diagnostic. -/
def pyReprPaths : List FsPath → String
  | [] => "[]"
  | f :: rest =>
    "[PosixPath(\x27" ++ pathStr f ++ "\x27)" ++
    (rest.foldl (fun acc p => acc ++ ", PosixPath(\x27" ++ pathStr p ++ "\x27)") "") ++ "]"

/-- The pre-scan diagnostic line. -/
def diagLine (cwd : String) (ex : Bool) (found : List FsPath) : String :=
  "CWD: " ++ cwd ++ ", apps exists: " ++ (if ex then "True" else "False") ++
  ", files: " ++ pyReprPaths found

/-- The post-write count report line for `n` discovered demos. -/
def countLine (n : Nat) : String :=
  "Generated gallery with " ++ toString n ++ " apps."

/-- The program's observable behaviour on one run: the diagnostic print, the
single write of the rendered document to `index.html`, then the count report. -/
def programTrace (cwd : String) (ex : Bool) (found : List FsPath) : List Event :=
  [Event.print (diagLine cwd ex found),
   Event.write "index.html" (buildHtml found),
   Event.print (countLine (mkEntries found).length)]

/-- Effect of one event on the destination file's content (`open(..., "w")`
truncates and overwrites; prints leave the file alone). -/
def applyEvent (file : Option String) (e : Event) : Option String :=
  match e with
  | Event.write p c => if p = "index.html" then some c else file
  | Event.print _ => file

/-- The destination file's content after one full run of the program. -/
def runProgram (file : Option String) (cwd : String) (ex : Bool)
    (found : List FsPath) : Option String :=
  (programTrace cwd ex found).foldl applyEvent file

/-- A small example filesystem (the spec's example scenario) used as a
concrete input in witnesses. -/
def exFs : List FsPath :=
  [["src", "apps", "logo", "MakeabilityLabLogo", "index.html"],
   ["src", "apps", "draw", "Sketchpad", "index.html"],
   ["src", "apps", "draw", "Paintbrush", "index.html"]]

/-- The same marker files as `exFs`, discovered in a different order. -/
def exFsSwap : List FsPath :=
  [["src", "apps", "draw", "Sketchpad", "index.html"],
   ["src", "apps", "logo", "MakeabilityLabLogo", "index.html"],
   ["src", "apps", "draw", "Paintbrush", "index.html"]]

/-- Strict version of `strLe`: strictly smaller string. -/
def strLt (a b : String) : Prop := strLe a b ∧ a ≠ b

/-- All cards of the grouping in accumulation (not render) order, each tagged
with its category. -/
def flatCards (m : List (String × List (String × String))) :
    List (String × String × String) :=
  m.flatMap fun ce => ce.2.map fun v => (v.1, v.2, ce.1)

/-- Concatenation of the strings `g x` over a list, in order. -/
def strConcatMap {γ : Type _} (g : γ → String) : List γ → String
  | [] => ""
  | x :: xs => g x ++ strConcatMap g xs

/-! ### The code-point order on strings -/

theorem lexLe_cons (a b : Char) (as bs : List Char) :
    lexLe (a :: as) (b :: bs) =
      if a.toNat < b.toNat then true
      else if b.toNat < a.toNat then false else lexLe as bs := rfl

theorem lexLe_cons_iff {a b : Char} {as bs : List Char} :
    lexLe (a :: as) (b :: bs) = true ↔
      a.toNat < b.toNat ∨ (a.toNat = b.toNat ∧ lexLe as bs = true) := by
  rw [lexLe_cons]
  by_cases h1 : a.toNat < b.toNat
  · simp [h1]
  · by_cases h2 : b.toNat < a.toNat
    · rw [if_neg h1, if_pos h2]
      constructor
      · intro h; cases h
      · intro h
        rcases h with h | ⟨he, _⟩
        · exact absurd h h1
        · omega
    · have h3 : a.toNat = b.toNat := by omega
      rw [if_neg h1, if_neg h2]
      constructor
      · intro h; exact Or.inr ⟨h3, h⟩
      · intro h
        rcases h with h | ⟨_, h⟩
        · exact absurd h h1
        · exact h

theorem lexLe_total : ∀ a b : List Char, lexLe a b = true ∨ lexLe b a = true
  | [], _ => Or.inl rfl
  | _ :: _, [] => Or.inr rfl
  | a :: as, b :: bs => by
    rcases Nat.lt_trichotomy a.toNat b.toNat with h | h | h
    · exact Or.inl (lexLe_cons_iff.mpr (Or.inl h))
    · rcases lexLe_total as bs with hr | hr
      · exact Or.inl (lexLe_cons_iff.mpr (Or.inr ⟨h, hr⟩))
      · exact Or.inr (lexLe_cons_iff.mpr (Or.inr ⟨h.symm, hr⟩))
    · exact Or.inr (lexLe_cons_iff.mpr (Or.inl h))

theorem lexLe_trans : ∀ {a b c : List Char},
    lexLe a b = true → lexLe b c = true → lexLe a c = true
  | [], _, _, _, _ => rfl
  | _ :: _, [], _, hab, _ => by cases hab
  | _ :: _, _ :: _, [], _, hbc => by cases hbc
  | a :: as, b :: bs, c :: cs, hab, hbc => by
    rcases lexLe_cons_iff.mp hab with h1 | ⟨h1, hr1⟩ <;>
      rcases lexLe_cons_iff.mp hbc with h2 | ⟨h2, hr2⟩
    · exact lexLe_cons_iff.mpr (Or.inl (Nat.lt_trans h1 h2))
    · exact lexLe_cons_iff.mpr (Or.inl (by omega))
    · exact lexLe_cons_iff.mpr (Or.inl (by omega))
    · exact lexLe_cons_iff.mpr (Or.inr ⟨by omega, lexLe_trans hr1 hr2⟩)

theorem char_eq_of_toNat_eq {a b : Char} (h : a.toNat = b.toNat) : a = b := by
  have hv : a.val = b.val := by
    simp only [Char.toNat] at h
    exact UInt32.toNat.inj h
  exact Char.eq_of_val_eq hv

theorem lexLe_antisymm : ∀ {a b : List Char},
    lexLe a b = true → lexLe b a = true → a = b
  | [], [], _, _ => rfl
  | [], _ :: _, _, hba => by cases hba
  | _ :: _, [], hab, _ => by cases hab
  | a :: as, b :: bs, hab, hba => by
    rcases lexLe_cons_iff.mp hab with h1 | ⟨h1, hr1⟩ <;>
      rcases lexLe_cons_iff.mp hba with h2 | ⟨h2, hr2⟩
    · omega
    · omega
    · omega
    · rw [char_eq_of_toNat_eq h1, lexLe_antisymm hr1 hr2]

instance : IsTotal String strLe := ⟨fun a b => lexLe_total a.data b.data⟩

instance : IsTrans String strLe := ⟨fun _ _ _ hab hbc => lexLe_trans hab hbc⟩

instance : IsAntisymm String strLe :=
  ⟨fun _ _ hab hba => String.ext (lexLe_antisymm hab hba)⟩

instance : IsAntisymm String strLt :=
  ⟨fun _ _ hab hba => String.ext (lexLe_antisymm hab.1 hba.1)⟩

instance : IsTotal FsPath pathLe :=
  ⟨fun p q => lexLe_total (pathStr p).data (pathStr q).data⟩

instance : IsTrans FsPath pathLe := ⟨fun _ _ _ hab hbc => lexLe_trans hab hbc⟩

/-! ### The scanner's sort -/

theorem scan_perm (found : List FsPath) : (scan found).Perm found :=
  List.perm_insertionSort pathLe found

theorem scan_sorted (found : List FsPath) : List.Sorted pathLe (scan found) :=
  List.sorted_insertionSort pathLe found

theorem sortedCats_perm (m : List (String × List (String × String))) :
    (sortedCats m).Perm (m.map Prod.fst) :=
  List.perm_insertionSort strLe (m.map Prod.fst)

theorem sortedCats_sorted (m : List (String × List (String × String))) :
    List.Sorted strLe (sortedCats m) :=
  List.sorted_insertionSort strLe (m.map Prod.fst)

theorem eq_of_perm_of_map_eq {α β : Type _} (f : α → β) :
    ∀ l₁ l₂ : List α, l₁.Perm l₂ → l₁.map f = l₂.map f →
      (l₁.map f).Nodup → l₁ = l₂ := by
  intro l₁
  induction l₁ with
  | nil =>
    intro l₂ hp _ _
    exact List.Perm.nil_eq hp
  | cons a t ih =>
    intro l₂ hp hm hnd
    cases l₂ with
    | nil => exact absurd (List.Perm.nil_eq hp.symm) (by simp)
    | cons b t₂ =>
      simp only [List.map_cons] at hm
      injection hm with h1 h2
      rw [List.map_cons] at hnd
      rcases List.nodup_cons.mp hnd with ⟨hfa, hndt⟩
      have hab : a = b := by
        rcases List.mem_cons.mp (hp.subset (List.mem_cons_self a t)) with h | h
        · exact h
        · exfalso
          apply hfa
          rw [h2]
          exact List.mem_map_of_mem f h
      subst hab
      rw [ih t₂ (hp.cons_inv) h2 hndt]

theorem scan_eq_of_perm {f₁ f₂ : List FsPath} (hp : f₁.Perm f₂)
    (hnd : (f₁.map pathStr).Nodup) : scan f₁ = scan f₂ := by
  have hp' : (scan f₁).Perm (scan f₂) :=
    (scan_perm f₁).trans (hp.trans (scan_perm f₂).symm)
  have hnd₁ : ((scan f₁).map pathStr).Nodup :=
    (((scan_perm f₁).map pathStr).nodup_iff).mpr hnd
  have hnd₂ : ((scan f₂).map pathStr).Nodup :=
    ((hp'.map pathStr).nodup_iff).mp hnd₁
  have hs₁ : List.Sorted strLt ((scan f₁).map pathStr) :=
    (List.Pairwise.map pathStr (fun _ _ h => h) (scan_sorted f₁)).and hnd₁
  have hs₂ : List.Sorted strLt ((scan f₂).map pathStr) :=
    (List.Pairwise.map pathStr (fun _ _ h => h) (scan_sorted f₂)).and hnd₂
  exact eq_of_perm_of_map_eq pathStr _ _ hp'
    (List.eq_of_perm_of_sorted (hp'.map pathStr) hs₁ hs₂) hnd₁

/-! ### The grouping -/

theorem keys_insertEntry_of_mem {m : List (String × List (String × String))}
    {c : String} (v : String × String) (h : c ∈ m.map Prod.fst) :
    (insertEntry m c v).map Prod.fst = m.map Prod.fst := by
  induction m with
  | nil => simp at h
  | cons ce rest ih =>
    rw [List.map_cons] at h
    by_cases hc : ce.1 = c
    · simp [insertEntry, hc]
    · rcases List.mem_cons.mp h with h | h
      · exact absurd h.symm hc
      · simp [insertEntry, hc, ih h]

theorem keys_insertEntry_of_not_mem {m : List (String × List (String × String))}
    {c : String} (v : String × String) (h : c ∉ m.map Prod.fst) :
    (insertEntry m c v).map Prod.fst = m.map Prod.fst ++ [c] := by
  induction m with
  | nil => simp [insertEntry]
  | cons ce rest ih =>
    rw [List.map_cons] at h
    have hc : ce.1 ≠ c := fun he => h (he ▸ List.mem_cons_self _ _)
    have hr : c ∉ rest.map Prod.fst := fun hm => h (List.mem_cons_of_mem _ hm)
    simp [insertEntry, hc, ih hr]

theorem keys_insertEntry_nodup {m : List (String × List (String × String))}
    {c : String} (v : String × String) (h : (m.map Prod.fst).Nodup) :
    ((insertEntry m c v).map Prod.fst).Nodup := by
  by_cases hm : c ∈ m.map Prod.fst
  · rw [keys_insertEntry_of_mem v hm]; exact h
  · rw [keys_insertEntry_of_not_mem v hm]
    simp [List.nodup_append, h, hm]

theorem mem_keys_insertEntry {m : List (String × List (String × String))}
    {c d : String} (v : String × String) :
    d ∈ (insertEntry m c v).map Prod.fst ↔ d ∈ m.map Prod.fst ∨ d = c := by
  by_cases hm : c ∈ m.map Prod.fst
  · rw [keys_insertEntry_of_mem v hm]
    constructor
    · exact Or.inl
    · intro h
      rcases h with h | h
      · exact h
      · exact h ▸ hm
  · rw [keys_insertEntry_of_not_mem v hm]
    simp

theorem keys_foldl_nodup (es : List (String × String × String)) :
    ∀ m : List (String × List (String × String)), (m.map Prod.fst).Nodup →
      (((es.foldl (fun m e => insertEntry m e.1 (e.2.1, e.2.2)) m)).map Prod.fst).Nodup := by
  induction es with
  | nil => intro m h; exact h
  | cons e rest ih =>
    intro m h
    rw [List.foldl_cons]
    exact ih _ (keys_insertEntry_nodup _ h)

theorem keys_byCategory_nodup (es : List (String × String × String)) :
    ((byCategory es).map Prod.fst).Nodup :=
  keys_foldl_nodup es [] (by simp)

theorem mem_keys_foldl (es : List (String × String × String)) :
    ∀ (m : List (String × List (String × String))) (d : String),
      d ∈ ((es.foldl (fun m e => insertEntry m e.1 (e.2.1, e.2.2)) m)).map Prod.fst ↔
        d ∈ m.map Prod.fst ∨ d ∈ es.map Prod.fst := by
  induction es with
  | nil => intro m d; simp
  | cons e rest ih =>
    intro m d
    rw [List.foldl_cons, ih, mem_keys_insertEntry]
    rw [List.map_cons, List.mem_cons]
    tauto

theorem mem_keys_byCategory {es : List (String × String × String)} {c : String} :
    c ∈ (byCategory es).map Prod.fst ↔ c ∈ es.map Prod.fst := by
  rw [byCategory, mem_keys_foldl]
  simp

theorem getCat_nil (c : String) : getCat [] c = [] := rfl

theorem getCat_cons_self {ce : String × List (String × String)}
    (rest : List (String × List (String × String))) {c : String} (h : ce.1 = c) :
    getCat (ce :: rest) c = ce.2 := by
  simp [getCat, List.find?_cons, h]

theorem getCat_cons_other {ce : String × List (String × String)}
    (rest : List (String × List (String × String))) {c : String} (h : ce.1 ≠ c) :
    getCat (ce :: rest) c = getCat rest c := by
  simp [getCat, List.find?_cons, h]

theorem getCat_insertEntry_self (m : List (String × List (String × String)))
    (c : String) (v : String × String) :
    getCat (insertEntry m c v) c = getCat m c ++ [v] := by
  induction m with
  | nil => simp [insertEntry, getCat, List.find?_cons]
  | cons ce rest ih =>
    by_cases h : ce.1 = c
    · rw [show insertEntry (ce :: rest) c v = (ce.1, ce.2 ++ [v]) :: rest by
        simp [insertEntry, h]]
      rw [getCat_cons_self rest h, @getCat_cons_self (ce.1, ce.2 ++ [v]) rest c h]
    · rw [show insertEntry (ce :: rest) c v = ce :: insertEntry rest c v by
        simp [insertEntry, h]]
      rw [getCat_cons_other _ h, getCat_cons_other _ h, ih]

theorem getCat_insertEntry_other (m : List (String × List (String × String)))
    {c d : String} (v : String × String) (h : d ≠ c) :
    getCat (insertEntry m c v) d = getCat m d := by
  induction m with
  | nil => simp [insertEntry, getCat, List.find?_cons, Ne.symm h]
  | cons ce rest ih =>
    by_cases hc : ce.1 = c
    · rw [show insertEntry (ce :: rest) c v = (ce.1, ce.2 ++ [v]) :: rest by
        simp [insertEntry, hc]]
      have hd : ce.1 ≠ d := fun he => h (he ▸ hc :)
      rw [getCat_cons_other _ hd, @getCat_cons_other (ce.1, ce.2 ++ [v]) rest d hd]
    · rw [show insertEntry (ce :: rest) c v = ce :: insertEntry rest c v by
        simp [insertEntry, hc]]
      by_cases hd : ce.1 = d
      · rw [getCat_cons_self _ hd, getCat_cons_self _ hd]
      · rw [getCat_cons_other _ hd, getCat_cons_other _ hd, ih]

theorem getCat_foldl (es : List (String × String × String)) :
    ∀ (m : List (String × List (String × String))) (c : String),
      getCat (es.foldl (fun m e => insertEntry m e.1 (e.2.1, e.2.2)) m) c =
        getCat m c ++ ((es.filter fun e => e.1 == c).map fun e => (e.2.1, e.2.2)) := by
  induction es with
  | nil => intro m c; simp
  | cons e rest ih =>
    intro m c
    rw [List.foldl_cons, ih]
    by_cases h : e.1 = c
    · subst h
      rw [getCat_insertEntry_self]
      rw [List.filter_cons_of_pos (by simp), List.map_cons, List.append_assoc]
      rfl
    · rw [getCat_insertEntry_other _ _ (Ne.symm h)]
      rw [List.filter_cons_of_neg (by simp [h])]

theorem getCat_byCategory (es : List (String × String × String)) (c : String) :
    getCat (byCategory es) c =
      ((es.filter fun e => e.1 == c).map fun e => (e.2.1, e.2.2)) := by
  rw [byCategory, getCat_foldl]
  rfl

theorem values_insertEntry_ne_nil {m : List (String × List (String × String))}
    (c : String) (v : String × String) (h : ∀ ce ∈ m, ce.2 ≠ []) :
    ∀ ce ∈ insertEntry m c v, ce.2 ≠ [] := by
  induction m with
  | nil =>
    intro ce hce
    rw [show insertEntry [] c v = [(c, [v])] from rfl] at hce
    rcases List.mem_singleton.mp hce with h'
    simp [h']
  | cons ce₀ rest ih =>
    by_cases hc : ce₀.1 = c
    · rw [show insertEntry (ce₀ :: rest) c v = (ce₀.1, ce₀.2 ++ [v]) :: rest by
        simp [insertEntry, hc]]
      intro ce hce
      rcases List.mem_cons.mp hce with h' | h'
      · simp [h']
      · exact h ce (List.mem_cons_of_mem _ h')
    · rw [show insertEntry (ce₀ :: rest) c v = ce₀ :: insertEntry rest c v by
        simp [insertEntry, hc]]
      intro ce hce
      rcases List.mem_cons.mp hce with h' | h'
      · exact h' ▸ h ce₀ (List.mem_cons_self _ _)
      · exact ih (fun x hx => h x (List.mem_cons_of_mem _ hx)) ce h'

theorem values_byCategory_ne_nil (es : List (String × String × String)) :
    ∀ ce ∈ byCategory es, ce.2 ≠ [] := by
  rw [byCategory]
  have h : ∀ (m : List (String × List (String × String))),
      (∀ ce ∈ m, ce.2 ≠ []) →
      ∀ ce ∈ es.foldl (fun m e => insertEntry m e.1 (e.2.1, e.2.2)) m, ce.2 ≠ [] := by
    induction es with
    | nil => intro m h; exact h
    | cons e rest ih =>
      intro m h
      rw [List.foldl_cons]
      exact ih _ (values_insertEntry_ne_nil _ _ h)
  exact h [] (by simp)

theorem flatMap_congr_mem {α β : Type _} {l : List α} {f g : α → List β}
    (h : ∀ a ∈ l, f a = g a) : l.flatMap f = l.flatMap g := by
  induction l with
  | nil => rfl
  | cons a t ih =>
    rw [List.flatMap_cons, List.flatMap_cons, h a (List.mem_cons_self _ _),
      ih fun b hb => h b (List.mem_cons_of_mem _ hb)]

theorem flatCards_insertEntry (m : List (String × List (String × String)))
    (c : String) (v : String × String) :
    (flatCards (insertEntry m c v)).Perm (flatCards m ++ [(v.1, v.2, c)]) := by
  induction m with
  | nil => simp [flatCards, insertEntry]
  | cons ce rest ih =>
    by_cases h : ce.1 = c
    · subst h
      rw [show insertEntry (ce :: rest) ce.1 v = (ce.1, ce.2 ++ [v]) :: rest by
        simp [insertEntry]]
      rw [flatCards, List.flatMap_cons, flatCards, List.flatMap_cons, List.map_append]
      simp only [List.append_assoc]
      exact List.Perm.append_left _ List.perm_append_comm
    · rw [show insertEntry (ce :: rest) c v = ce :: insertEntry rest c v by
        simp [insertEntry, h]]
      rw [flatCards, List.flatMap_cons, flatCards, List.flatMap_cons, List.append_assoc]
      exact List.Perm.append_left _ (ih.trans (by rw [flatCards]))

theorem flatCards_foldl (es : List (String × String × String)) :
    ∀ m : List (String × List (String × String)),
      (flatCards (es.foldl (fun m e => insertEntry m e.1 (e.2.1, e.2.2)) m)).Perm
        (flatCards m ++ es.map fun e => (e.2.1, e.2.2, e.1)) := by
  induction es with
  | nil => intro m; simp
  | cons e rest ih =>
    intro m
    rw [List.foldl_cons]
    refine (ih _).trans ?_
    rw [List.map_cons]
    refine ((flatCards_insertEntry m e.1 (e.2.1, e.2.2)).append_right _).trans ?_
    rw [List.append_assoc]
    rfl

theorem flatCards_byCategory (es : List (String × String × String)) :
    (flatCards (byCategory es)).Perm (es.map fun e => (e.2.1, e.2.2, e.1)) := by
  have h := flatCards_foldl es []
  rw [show flatCards [] = [] from rfl, List.nil_append] at h
  exact h

theorem keys_flatMap_getCat (m : List (String × List (String × String)))
    (hnd : (m.map Prod.fst).Nodup) :
    ((m.map Prod.fst).flatMap fun c => (getCat m c).map fun v => (v.1, v.2, c)) =
      flatCards m := by
  induction m with
  | nil => rfl
  | cons ce rest ih =>
    rw [List.map_cons] at hnd ⊢
    rcases List.nodup_cons.mp hnd with ⟨hni, hndr⟩
    rw [List.flatMap_cons, flatCards, List.flatMap_cons]
    rw [getCat_cons_self rest rfl]
    congr 1
    rw [← flatCards, ← ih hndr]
    refine flatMap_congr_mem fun c hc => ?_
    have hcne : ce.1 ≠ c := fun he => hni (he ▸ hc)
    rw [getCat_cons_other rest hcne]

theorem cardsList_perm_flatCards (m : List (String × List (String × String)))
    (hnd : (m.map Prod.fst).Nodup) : (cardsList m).Perm (flatCards m) := by
  rw [cardsList, ← keys_flatMap_getCat m hnd]
  exact List.Perm.flatMap_right _ (sortedCats_perm m)

theorem galleryCards_perm (found : List FsPath) :
    (galleryCards found).Perm ((mkEntries found).map fun e => (e.2.1, e.2.2, e.1)) :=
  (cardsList_perm_flatCards _ (keys_byCategory_nodup _)).trans
    (flatCards_byCategory _)

/-! ### String containment in the rendered document -/

/-- Predicate: `sub` occurs (contiguously, verbatim) inside `s`. -/
def strContains (s sub : String) : Prop := ∃ pre post, s = pre ++ sub ++ post

theorem strContains_mono (a b : String) {s sub : String} (h : strContains s sub) :
    strContains (a ++ s ++ b) sub := by
  rcases h with ⟨p, q, h⟩
  exact ⟨a ++ p, q ++ b, by rw [h]; simp [String.append_assoc]⟩

theorem foldl_append_str {γ : Type _} (g : γ → String) :
    ∀ (l : List γ) (acc : String),
      l.foldl (fun a x => a ++ g x) acc = acc ++ strConcatMap g l := by
  intro l
  induction l with
  | nil => intro acc; rw [List.foldl_nil, strConcatMap]; simp
  | cons x t ih =>
    intro acc
    rw [List.foldl_cons, ih, strConcatMap, ← String.append_assoc]

theorem strConcatMap_mem_split {γ : Type _} (g : γ → String) {l : List γ} {x : γ}
    (hx : x ∈ l) : strContains (strConcatMap g l) (g x) := by
  induction l with
  | nil => simp at hx
  | cons y t ih =>
    rcases List.mem_cons.mp hx with h | h
    · exact ⟨"", strConcatMap g t, by rw [strConcatMap, h]; simp⟩
    · rcases ih h with ⟨p, q, hs⟩
      exact ⟨g y ++ p, q, by rw [strConcatMap, hs]; simp [String.append_assoc]⟩

theorem cardsHtml_eq (c : String) (items : List (String × String)) :
    cardsHtml c items = strConcatMap (fun v => cardHtml v.1 v.2 c) items := by
  rw [cardsHtml, foldl_append_str]
  simp

theorem sectionsHtml_eq (m : List (String × List (String × String))) :
    sectionsHtml m = strConcatMap (fun c => sectionHtml c (getCat m c)) (sortedCats m) := by
  rw [sectionsHtml, foldl_append_str]
  simp

theorem card_in_sectionsHtml {m : List (String × List (String × String))}
    {n p c : String} (h : (n, p, c) ∈ cardsList m) :
    strContains (sectionsHtml m) (cardHtml n p c) := by
  rw [cardsList] at h
  rcases List.mem_flatMap.mp h with ⟨c', hc', hmem⟩
  rcases List.mem_map.mp hmem with ⟨v, hv, hveq⟩
  have hveq' : v.1 = n ∧ v.2 = p ∧ c' = c := by
    simpa [Prod.ext_iff] using hveq
  rcases hveq' with ⟨hn, hp, hc⟩
  rw [← hc, ← hn, ← hp]
  have h1 : strContains (cardsHtml c' (getCat m c')) (cardHtml v.1 v.2 c') := by
    rw [cardsHtml_eq]
    exact strConcatMap_mem_split (fun w : String × String => cardHtml w.1 w.2 c') hv
  have h2 : strContains (sectionHtml c' (getCat m c')) (cardHtml v.1 v.2 c') := by
    rcases h1 with ⟨a, b, hab⟩
    rw [sectionHtml, hab]
    exact ⟨("<section><h2>" ++ c' ++ "</h2><div class=\x27grid\x27>") ++ a,
      b ++ "</div></section>\n", by simp [String.append_assoc]⟩
  have h3 : strContains (sectionsHtml m) (sectionHtml c' (getCat m c')) := by
    rw [sectionsHtml_eq]
    exact strConcatMap_mem_split (fun d => sectionHtml d (getCat m d)) hc'
  rcases h3 with ⟨a, b, hab⟩
  rcases h2 with ⟨d, e, hde⟩
  rw [hab, hde]
  exact ⟨a ++ d, e ++ b, by simp [String.append_assoc]⟩

theorem card_in_buildHtml {found : List FsPath} {n p c : String}
    (h : (n, p, c) ∈ galleryCards found) :
    strContains (buildHtml found) (cardHtml n p c) := by
  rw [buildHtml, htmlDoc]
  exact strContains_mono docHead docTail (card_in_sectionsHtml h)

theorem cardHtml_href_split (n p c : String) :
    cardHtml n p c = "\n        <a class=\"card\" " ++ ("href=\"" ++ p ++ "/\"") ++
      (">\n          <div class=\"card-name\">" ++ n ++
       "</div>\n          <div class=\"card-category\">" ++ c ++
       "</div>\n        </a>") := by
  rw [cardHtml]
  simp only [String.append_assoc]
  rw [← String.append_assoc "\n        <a class=\"card\" " "href=\"",
    show ("\n        <a class=\"card\" " ++ "href=\"" : String) =
      "\n        <a class=\"card\" href=\"" from rfl,
    ← String.append_assoc "/\"" ">\n          <div class=\"card-name\">",
    show ("/\"" ++ ">\n          <div class=\"card-name\">" : String) =
      "/\">\n          <div class=\"card-name\">" from rfl]

theorem cardHtml_contains_name (n p c : String) : strContains (cardHtml n p c) n :=
  ⟨"\n        <a class=\"card\" href=\"" ++ p ++
     "/\">\n          <div class=\"card-name\">",
   "</div>\n          <div class=\"card-category\">" ++ c ++
     "</div>\n        </a>", by
    rw [cardHtml]
    simp [String.append_assoc]⟩

theorem cardHtml_contains_category (n p c : String) : strContains (cardHtml n p c) c :=
  ⟨"\n        <a class=\"card\" href=\"" ++ p ++
     "/\">\n          <div class=\"card-name\">" ++ n ++
     "</div>\n          <div class=\"card-category\">",
   "</div>\n        </a>", by
    rw [cardHtml]⟩

theorem cardHtml_contains_path (n p c : String) :
    strContains (cardHtml n p c) (p ++ "/") :=
  ⟨"\n        <a class=\"card\" href=\"",
   "\">\n          <div class=\"card-name\">" ++ n ++
     "</div>\n          <div class=\"card-category\">" ++ c ++
     "</div>\n        </a>", by
    rw [cardHtml]
    simp only [String.append_assoc]
    rw [← String.append_assoc "/" "\">\n          <div class=\"card-name\">",
      show ("/" ++ "\">\n          <div class=\"card-name\">" : String) =
        "/\">\n          <div class=\"card-name\">" from rfl]⟩

/-! ### Claims -/

/-- C4: the Scanner produces the sequence of all discovered marker-file paths,
as a permutation of the `rglob` result, sorted by full path string comparison
(lexicographic code-point order on the whole path string, not just the
filename), so a lexicographically smaller full path string is processed first. -/
theorem C4_scanner_sorted (found : List FsPath) :
    (scan found).Perm found ∧
      List.Pairwise (fun p q => strLe (pathStr p) (pathStr q)) (scan found) :=
  ⟨scan_perm found, scan_sorted found⟩

/-- C2: for every marker-file path the Grouper computes `app_path` as the path
with the marker filename removed, `name` as the final segment of `app_path`,
`category` as the final segment of `app_path`'s parent, and accumulates a
mapping category → ordered `(name, path)` list in scan order (the sublist of
entries with that category, no secondary sort). -/
theorem C2_grouper (found : List FsPath) :
    mkEntries found = (scan found).map (fun f =>
      (pname (parentDir (parentDir f)), pname (parentDir f),
        relPath (parentDir f))) ∧
    ∀ c : String, getCat (byCategory (mkEntries found)) c =
      (((mkEntries found).filter fun e => e.1 == c).map fun e => (e.2.1, e.2.2)) :=
  ⟨rfl, fun c => getCat_byCategory _ c⟩

/-- C3: the rendered category sections appear in strictly ascending
lexicographic order of category name, one section per distinct category of the
entries (the enumerated keys are exactly the categories, without duplicates),
and the sections text is the concatenation of the section blocks in that
order. -/
theorem C3_category_ordering (found : List FsPath) :
    List.Pairwise strLt (sortedCats (byCategory (mkEntries found))) ∧
    (∀ c : String, c ∈ sortedCats (byCategory (mkEntries found)) ↔
      c ∈ (mkEntries found).map Prod.fst) ∧
    sectionsHtml (byCategory (mkEntries found)) =
      strConcatMap
        (fun c => sectionHtml c (getCat (byCategory (mkEntries found)) c))
        (sortedCats (byCategory (mkEntries found))) := by
  have hnd : (sortedCats (byCategory (mkEntries found))).Nodup :=
    (sortedCats_perm _).nodup_iff.mpr (keys_byCategory_nodup _)
  refine ⟨(sortedCats_sorted _).and hnd, ?_, sectionsHtml_eq _⟩
  intro c
  rw [(sortedCats_perm _).mem_iff, mem_keys_byCategory]

/-- C7: on an absent or empty scan root (no marker files found) no error is
raised: the scan is empty, the grouping is empty, the document is still
rendered with zero sections and written, and the reported demo count is 0. -/
theorem C7_empty_root (cwd : String) (ex : Bool) (prior : Option String) :
    scan [] = ([] : List FsPath) ∧
    mkEntries [] = [] ∧
    byCategory (mkEntries []) = [] ∧
    sectionsHtml (byCategory (mkEntries [])) = "" ∧
    buildHtml [] = htmlDoc "" ∧
    programTrace cwd ex [] =
      [Event.print (diagLine cwd ex []),
       Event.write "index.html" (htmlDoc ""),
       Event.print (countLine 0)] ∧
    runProgram prior cwd ex [] = some (htmlDoc "") := by
  have hb : buildHtml [] = htmlDoc "" := rfl
  have hr : runProgram prior cwd ex [] = some (htmlDoc "") := by
    simp [runProgram, programTrace, applyEvent, hb]
  exact ⟨rfl, rfl, rfl, rfl, hb, rfl, hr⟩

/-- C8: the Writer writes the rendered document to the fixed destination
`index.html`, overwriting whatever content was there before, and the count of
discovered demos (the number of marker files found) is reported only after the
write, as the following trace event. -/
theorem C8_writer (cwd : String) (ex : Bool) (found : List FsPath)
    (prior : Option String) :
    programTrace cwd ex found =
      [Event.print (diagLine cwd ex found),
       Event.write "index.html" (buildHtml found),
       Event.print (countLine found.length)] ∧
    (mkEntries found).length = found.length ∧
    runProgram prior cwd ex found = some (buildHtml found) := by
  have hlen : (mkEntries found).length = found.length := by
    rw [mkEntries, List.length_map]
    exact (scan_perm found).length_eq
  refine ⟨?_, hlen, ?_⟩
  · rw [programTrace, hlen]
  · simp [runProgram, programTrace, applyEvent]

/-- C9: the renderer performs no HTML-escaping: the name, category and path
strings are spliced verbatim (character for character) into the generated card
and section markup, whatever characters they contain. -/
theorem C9_no_escaping (n p c : String) (items : List (String × String)) :
    cardHtml n p c =
      "\n        <a class=\"card\" href=\"" ++ p ++
      "/\">\n          <div class=\"card-name\">" ++ n ++
      "</div>\n          <div class=\"card-category\">" ++ c ++
      "</div>\n        </a>" ∧
    sectionHtml c items =
      "<section><h2>" ++ c ++ "</h2><div class=\x27grid\x27>" ++
        cardsHtml c items ++ "</div></section>\n" ∧
    strContains (cardHtml n p c) n ∧
    strContains (cardHtml n p c) c ∧
    strContains (cardHtml n p c) (p ++ "/") :=
  ⟨rfl, rfl, cardHtml_contains_name n p c, cardHtml_contains_category n p c,
    cardHtml_contains_path n p c⟩

/-- C1: for every marker file under the scan root exactly one card appears in
the output (counting rendered cards by hyperlink target), every such card
occurs verbatim in the output HTML, and its hyperlink target is the marker
file's containing directory path with a trailing slash appended. -/
theorem C1_completeness {found : List FsPath} {q : FsPath} (hq : q ∈ found)
    (hnd : (found.map fun f => relPath (parentDir f)).Nodup) :
    ((galleryCards found).countP fun card =>
        card.2.1 == relPath (parentDir q)) = 1 ∧
    ∀ n c : String, (n, relPath (parentDir q), c) ∈ galleryCards found →
      strContains (buildHtml found) (cardHtml n (relPath (parentDir q)) c) ∧
      ∃ pre post, cardHtml n (relPath (parentDir q)) c =
        pre ++ ("href=\"" ++ relPath (parentDir q) ++ "/\"") ++ post := by
  constructor
  · rw [List.Perm.countP_eq _ (galleryCards_perm found), List.countP_map,
      mkEntries, List.countP_map, List.Perm.countP_eq _ (scan_perm found)]
    have hc : (found.map fun f => relPath (parentDir f)).count
        (relPath (parentDir q)) = 1 :=
      List.count_eq_one_of_mem hnd (List.mem_map_of_mem _ hq)
    rw [List.count_eq_countP, List.countP_map] at hc
    exact hc
  · intro n c hmem
    exact ⟨card_in_buildHtml hmem,
      ⟨"\n        <a class=\"card\" ",
       ">\n          <div class=\"card-name\">" ++ n ++
         "</div>\n          <div class=\"card-category\">" ++ c ++
         "</div>\n        </a>",
       cardHtml_href_split n (relPath (parentDir q)) c⟩⟩

/-- Witness for C1 at the example filesystem. -/
theorem C1_completeness_witness :
    (["src", "apps", "draw", "Sketchpad", "index.html"] : FsPath) ∈ exFs ∧
    (exFs.map fun f => relPath (parentDir f)).Nodup ∧
    ((galleryCards exFs).countP fun card =>
      card.2.1 == relPath (parentDir
        (["src", "apps", "draw", "Sketchpad", "index.html"] : FsPath))) = 1 :=
  ⟨by decide, by decide,
    (@C1_completeness exFs ["src", "apps", "draw", "Sketchpad", "index.html"]
      (by decide) (by decide)).1⟩

/-- C5: determinism and idempotent overwrite — with the same set of marker
files discovered (in any order, their full path strings pairwise distinct),
two runs build byte-identical output HTML; every run leaves the destination
file holding exactly the built document, so a second run with an unchanged
filesystem leaves the destination file's content unchanged. -/
theorem C5_determinism {f₁ f₂ : List FsPath} (hp : f₁.Perm f₂)
    (hnd : (f₁.map pathStr).Nodup) (prior : Option String) (cwd : String)
    (ex : Bool) :
    buildHtml f₁ = buildHtml f₂ ∧
    runProgram prior cwd ex f₁ = some (buildHtml f₁) ∧
    runProgram (runProgram prior cwd ex f₁) cwd ex f₂ =
      runProgram prior cwd ex f₂ := by
  have hs : scan f₁ = scan f₂ := scan_eq_of_perm hp hnd
  have hb : buildHtml f₁ = buildHtml f₂ :=
    congrArg (fun l => htmlDoc (sectionsHtml (byCategory (List.map entryOf l)))) hs
  have h1 : ∀ (pr : Option String) (g : List FsPath),
      runProgram pr cwd ex g = some (buildHtml g) := by
    intro pr g
    simp [runProgram, programTrace, applyEvent]
  exact ⟨hb, h1 prior f₁, by rw [h1, h1]⟩

/-- Witness for C5 at the example filesystem and a permutation of it. -/
theorem C5_determinism_witness :
    exFs.Perm exFsSwap ∧ (exFs.map pathStr).Nodup ∧
    buildHtml exFs = buildHtml exFsSwap :=
  ⟨by decide, by decide,
    (C5_determinism (by decide) (by decide) none "" true).1⟩

/-- C6: grouping invariants — no category appears as two sections, no section
is empty, the rendered cards are in bijection with the entries (each demo's
card appears exactly once across all sections), and every entry's card lies in
the section of its own category, so cards whose source directories share a
parent directory name share a section. -/
theorem C6_grouping_invariants (found : List FsPath) :
    ((byCategory (mkEntries found)).map Prod.fst).Nodup ∧
    (∀ ce ∈ byCategory (mkEntries found), ce.2 ≠ []) ∧
    (galleryCards found).Perm
      ((mkEntries found).map fun e => (e.2.1, e.2.2, e.1)) ∧
    (∀ e ∈ mkEntries found,
      (e.2.1, e.2.2) ∈ getCat (byCategory (mkEntries found)) e.1) := by
  refine ⟨keys_byCategory_nodup _, values_byCategory_ne_nil _,
    galleryCards_perm _, ?_⟩
  intro e he
  rw [getCat_byCategory]
  exact List.mem_map_of_mem _ (List.mem_filter.mpr ⟨he, by simp⟩)

/-- Witness for C6: at the example filesystem, the concrete "draw" section of
the grouping exists and is nonempty. -/
theorem C6_grouping_invariants_witness :
    ("draw", [("Paintbrush", "src/apps/draw/Paintbrush"),
              ("Sketchpad", "src/apps/draw/Sketchpad")]) ∈
        byCategory (mkEntries exFs) ∧
    (("draw", [("Paintbrush", "src/apps/draw/Paintbrush"),
               ("Sketchpad", "src/apps/draw/Sketchpad")]) :
        String × List (String × String)).2 ≠ [] :=
  ⟨by decide, (C6_grouping_invariants exFs).2.1 _ (by decide)⟩

/-- C10: a marker file directly inside the scan root (`src/apps/index.html`,
depth one) does not break the build: name and category are still defined —
the name is the scan root's final segment `"apps"` and the category the
root's parent segment `"src"` — and a card is emitted for it like any other
demo. -/
theorem C10_shallow_marker :
    entryOf ["src", "apps", "index.html"] = ("src", "apps", "src/apps") ∧
    mkEntries [["src", "apps", "index.html"]] = [("src", "apps", "src/apps")] ∧
    galleryCards [["src", "apps", "index.html"]] =
      [("apps", "src/apps", "src")] ∧
    strContains (buildHtml [["src", "apps", "index.html"]])
      (cardHtml "apps" "src/apps" "src") := by
  refine ⟨by decide, by decide, by decide, ?_⟩
  exact card_in_buildHtml (by decide)

end BuildGallery
